import Mathlib

/-!
# Verification of the company batch-upsert middleware

A shallow embedding of the Go middleware package (`middleware/main.go`):
the `Company` entity, the batch upsert engine `ProcessBatch`, the point
update `UpdateTreatedField` and the query `FetchAllCompanies`, together
with a model of the MongoDB collection they run against.

The MongoDB collection is modelled as a `List Company` in natural
(insertion) order.  The driver operations used by the source —
`UpdateOne`/`NewUpdateOneModel` with a `{name: …}` equality filter, a
`$set` update document and the upsert flag, `BulkWrite` with
`SetOrdered(false)`, and `Find` with sort `{name: 1}` — are modelled
with MongoDB's documented semantics:

* an update matches the first document in natural order whose `name`
  field equals the filter value; `$set` overwrites exactly the listed
  fields; `ModifiedCount` counts only documents whose bytes actually
  changed, while an upsert that inserts contributes to `UpsertedCount`
  and inserts the new document at the end of the collection;
* an unordered bulk write executes every operation even when some
  individual operation is rejected by the store; any rejected operation
  makes the whole call return an error (a bulk-write exception) after
  the remaining operations have been applied.  Rejection of individual
  operations is external nondeterminism of the store and is modelled by
  a predicate `reject` on operations (`reject = fun _ => false` is the
  happy path).
-/

namespace Middleware

/-- `Company` from the source: `Name`, `Address`, `Treated` with bson
keys `name`, `address`, `treated`. -/
structure Company where
  name : String
  address : String
  treated : Bool
deriving DecidableEq, Repr

/-- One `mongo.NewUpdateOneModel()`: an equality filter on the `name`
field, a `$set` update document giving values for the `name`, `address`
and `treated` fields, and the upsert flag. -/
structure UpdateOneModel where
  filterName : String
  setName : String
  setAddress : String
  setTreated : Bool
  upsert : Bool
deriving DecidableEq, Repr

/-- The document produced by applying the `$set` document of `op` (the
stored documents have exactly the three fields `name`, `address`,
`treated`, so `$set` of all three is a full-document replace). -/
def setDoc (op : UpdateOneModel) : Company :=
  { name := op.setName, address := op.setAddress, treated := op.setTreated }

/-- MongoDB semantics of executing one `UpdateOneModel` against the
collection: replace the first document matching the filter (the
modified flag is set only when the document actually changes), else
insert the `$set` document at the end when `upsert` is set.  Returns
`(new collection, modified flag, upserted flag)`. -/
def applyUpdateOne (op : UpdateOneModel) : List Company → List Company × Bool × Bool
  | [] => if op.upsert then ([setDoc op], false, true) else ([], false, false)
  | d :: ds =>
    if d.name = op.filterName then
      (setDoc op :: ds, decide (setDoc op ≠ d), false)
    else
      let r := applyUpdateOne op ds
      (d :: r.1, r.2.1, r.2.2)

/-- The result of `collection.BulkWrite`: the collection afterwards,
`ModifiedCount`, `UpsertedCount`, and whether the call returned an
error (a bulk-write exception caused by rejected operations). -/
structure BulkResult where
  docs : List Company
  modifiedCount : Nat
  upsertedCount : Nat
  hadError : Bool
deriving DecidableEq, Repr

/-- MongoDB semantics of `BulkWrite` with `SetOrdered(false)`: every
operation is executed even if an earlier one was rejected by the store;
a rejected operation leaves the collection unchanged but makes the call
report an error. -/
def bulkWriteUnordered (reject : UpdateOneModel → Bool) :
    List UpdateOneModel → List Company → BulkResult
  | [], docs => ⟨docs, 0, 0, false⟩
  | op :: ops, docs =>
    if reject op then
      let r := bulkWriteUnordered reject ops docs
      ⟨r.docs, r.modifiedCount, r.upsertedCount, true⟩
    else
      let a := applyUpdateOne op docs
      let r := bulkWriteUnordered reject ops a.1
      ⟨r.docs, (if a.2.1 then 1 else 0) + r.modifiedCount,
        (if a.2.2 then 1 else 0) + r.upsertedCount, r.hadError⟩

/-- The happy path: the store rejects no operation. -/
def noReject : UpdateOneModel → Bool := fun _ => false

/-- The operation list built by `ProcessBatch`'s loop: for each company
one `UpdateOneModel` with filter `{name: company.Name}`, update
`{$set: {name, address, treated}}` and `SetUpsert(true)`. -/
def buildOperations (companies : List Company) : List UpdateOneModel :=
  companies.map fun c =>
    { filterName := c.name, setName := c.name, setAddress := c.address,
      setTreated := c.treated, upsert := true }

/-- The store state seen by the batch processor: the collection
contents plus a counter of `BulkWrite` calls issued (to express that an
operation performed no store call). -/
structure StoreState where
  docs : List Company
  bulkCalls : Nat
deriving DecidableEq, Repr

/-- What `ProcessBatch` returns (`(int, error)` in Go) together with
the store state after the call. -/
structure ProcessResult where
  count : Nat
  error : Option String
  state : StoreState
deriving DecidableEq, Repr

/-- `ProcessBatch` from the source: empty input returns `(0, nil)`
without touching the store; otherwise it builds one upsert operation
per company, submits them as a single unordered bulk write, returns
`(0, wrapped error)` if the bulk write reported an error and
`ModifiedCount + UpsertedCount` on success. -/
def ProcessBatch (reject : UpdateOneModel → Bool) (st : StoreState)
    (companies : List Company) : ProcessResult :=
  if companies.isEmpty then ⟨0, none, st⟩
  else
    let r := bulkWriteUnordered reject (buildOperations companies) st.docs
    let st' : StoreState := ⟨r.docs, st.bulkCalls + 1⟩
    if r.hadError then ⟨0, some "failed to process batch: bulk write exception", st'⟩
    else ⟨r.modifiedCount + r.upsertedCount, none, st'⟩

/-- A sequence of `ProcessBatch` calls against the same store. -/
def runBatches (reject : UpdateOneModel → Bool) (st : StoreState)
    (batches : List (List Company)) : StoreState :=
  batches.foldl (fun s b => (ProcessBatch reject s b).state) st

/-- MongoDB semantics of the `UpdateOne` issued by `UpdateTreatedField`:
filter `{name: companyName}`, update `{$set: {treated: true}}`.  Sets
the `treated` field of the first matching document; returns
`(new collection, MatchedCount, ModifiedCount)` (`ModifiedCount` is 0
when the field was already `true`, i.e. no bytes changed). -/
def updateOneTreated (companyName : String) : List Company → List Company × Nat × Nat
  | [] => ([], 0, 0)
  | d :: ds =>
    if d.name = companyName then
      if d.treated then (d :: ds, 1, 0)
      else ({ d with treated := true } :: ds, 1, 1)
    else
      let r := updateOneTreated companyName ds
      (d :: r.1, r.2.1, r.2.2)

/-- The three outcomes of `UpdateTreatedField` in the source: success
(`nil`), `company not found` (MatchedCount 0), `company found but no
update performed` (ModifiedCount 0). -/
inductive UpdateResult where
  | success
  | notFound
  | noOp
deriving DecidableEq, Repr

/-- `UpdateTreatedField` from the source: `UpdateOne` with filter
`{name: companyName}` and update `{$set: {treated: true}}`; errors by
trichotomy on `MatchedCount` / `ModifiedCount`. -/
def UpdateTreatedField (companyName : String) (docs : List Company) :
    UpdateResult × List Company :=
  let r := updateOneTreated companyName docs
  if r.2.1 = 0 then (.notFound, r.1)
  else if r.2.2 = 0 then (.noOp, r.1)
  else (.success, r.1)

/-- Companies ordered by `name`, the sort key of `FetchAllCompanies`. -/
def nameLE (a b : Company) : Prop := a.name ≤ b.name

instance : DecidableRel nameLE := fun a b =>
  inferInstanceAs (Decidable (a.name ≤ b.name))

instance : IsTotal Company nameLE := ⟨fun a b => le_total a.name b.name⟩

instance : IsTrans Company nameLE := ⟨fun _ _ _ h h' => le_trans h h'⟩

/-- `FetchAllCompanies` from the source: `Find` with an empty filter
and sort option `{name: 1}` — every stored document, ascending by
`name` (MongoDB's sort is modelled by a stable sort on the collection's
natural order). -/
def FetchAllCompanies (docs : List Company) : List Company :=
  List.insertionSort nameLE docs

/-- The `name` fields of the stored documents, in natural order. -/
def docNames (docs : List Company) : List String :=
  docs.map Company.name

/-- The storage-layer uniqueness invariant: at most one stored document
per `name` (what the unique index on `name` enforces). -/
def NamesNodup (docs : List Company) : Prop :=
  (docNames docs).Nodup

instance (docs : List Company) : Decidable (NamesNodup docs) :=
  inferInstanceAs (Decidable (docNames docs).Nodup)

/-- First stored document with the given `name`, in natural order. -/
def findName (n : String) (docs : List Company) : Option Company :=
  docs.find? fun d => d.name = n

/-- The last operation of the list whose filter is `n` (the writer that
wins for key `n` within one bulk write). -/
def lastUpd (n : String) : List UpdateOneModel → Option UpdateOneModel
  | [] => none
  | op :: ops =>
    match lastUpd n ops with
    | some op' => some op'
    | none => if op.filterName = n then some op else none

/-- The operations the batch engine emits: upsert mode, and the `$set`
name equal to the filtered name. -/
def goodOp (op : UpdateOneModel) : Prop :=
  op.upsert = true ∧ op.setName = op.filterName

theorem goodOp_buildOperations {companies : List Company} {op : UpdateOneModel}
    (h : op ∈ buildOperations companies) : goodOp op := by
  simp only [buildOperations, List.mem_map] at h
  obtain ⟨c, -, rfl⟩ := h
  exact ⟨rfl, rfl⟩

theorem applyUpdateOne_cons_match {op : UpdateOneModel} {d : Company}
    (ds : List Company) (h : d.name = op.filterName) :
    applyUpdateOne op (d :: ds) = (setDoc op :: ds, decide (setDoc op ≠ d), false) := by
  simp [applyUpdateOne, h]

theorem applyUpdateOne_cons_nomatch {op : UpdateOneModel} {d : Company}
    (ds : List Company) (h : ¬d.name = op.filterName) :
    applyUpdateOne op (d :: ds) =
      (d :: (applyUpdateOne op ds).1, (applyUpdateOne op ds).2) := by
  simp [applyUpdateOne, h]

theorem docNames_cons (d : Company) (ds : List Company) :
    docNames (d :: ds) = d.name :: docNames ds := rfl

theorem docNames_applyUpdateOne {op : UpdateOneModel} (h : goodOp op)
    (docs : List Company) :
    docNames (applyUpdateOne op docs).1 =
      if op.filterName ∈ docNames docs then docNames docs
      else docNames docs ++ [op.filterName] := by
  induction docs with
  | nil =>
    rw [show applyUpdateOne op [] = ([setDoc op], false, true) by
      simp [applyUpdateOne, h.1]]
    simp [docNames, setDoc, h.2]
  | cons d ds ih =>
    by_cases hd : d.name = op.filterName
    · rw [applyUpdateOne_cons_match ds hd]
      have hmem : op.filterName ∈ docNames (d :: ds) := by
        rw [docNames_cons, ← hd]; exact List.mem_cons_self _ _
      rw [if_pos hmem, docNames_cons, docNames_cons]
      simp [setDoc, h.2, hd]
    · have hd' : ¬op.filterName = d.name := fun e => hd e.symm
      have hiff : op.filterName ∈ docNames (d :: ds) ↔ op.filterName ∈ docNames ds := by
        rw [docNames_cons, List.mem_cons]
        exact or_iff_right hd'
      rw [applyUpdateOne_cons_nomatch ds hd, docNames_cons, ih]
      by_cases hm : op.filterName ∈ docNames ds
      · rw [if_pos hm, if_pos (hiff.mpr hm), docNames_cons]
      · rw [if_neg hm, if_neg (fun hh => hm (hiff.mp hh)), docNames_cons]
        rfl

theorem findName_applyUpdateOne {op : UpdateOneModel} (h : goodOp op)
    (docs : List Company) (n : String) :
    findName n (applyUpdateOne op docs).1 =
      if n = op.filterName then some (setDoc op) else findName n docs := by
  induction docs with
  | nil =>
    rw [show applyUpdateOne op [] = ([setDoc op], false, true) by
      simp [applyUpdateOne, h.1]]
    by_cases hn : n = op.filterName
    · simp [findName, setDoc, h.2, hn]
    · have hn' : ¬op.filterName = n := fun e => hn e.symm
      simp [findName, setDoc, h.2, hn, hn']
  | cons d ds ih =>
    by_cases hd : d.name = op.filterName
    · rw [applyUpdateOne_cons_match ds hd]
      by_cases hn : n = op.filterName
      · simp [findName, setDoc, h.2, hn]
      · have hn' : ¬op.filterName = n := fun e => hn e.symm
        rw [if_neg hn]
        simp only [findName]
        rw [List.find?_cons_of_neg _ (by simp [setDoc, h.2, hn']),
          List.find?_cons_of_neg _ (by simp [hd, hn'])]
    · rw [applyUpdateOne_cons_nomatch ds hd]
      by_cases hdn : d.name = n
      · have hn : ¬n = op.filterName := fun e => hd (hdn.trans e)
        rw [if_neg hn]
        simp only [findName]
        rw [List.find?_cons_of_pos _ (by simp [hdn]),
          List.find?_cons_of_pos _ (by simp [hdn])]
      · simp only [findName] at ih ⊢
        rw [List.find?_cons_of_neg _ (by simp [hdn]),
          List.find?_cons_of_neg _ (by simp [hdn]), ih]

theorem upserted_false_of_mem {op : UpdateOneModel} {docs : List Company}
    (h : op.filterName ∈ docNames docs) :
    (applyUpdateOne op docs).2.2 = false := by
  induction docs with
  | nil => simp [docNames] at h
  | cons d ds ih =>
    by_cases hd : d.name = op.filterName
    · simp [applyUpdateOne_cons_match ds hd]
    · have hm : op.filterName ∈ docNames ds := by
        rw [docNames_cons, List.mem_cons] at h
        exact h.resolve_left fun e => hd e.symm
      rw [applyUpdateOne_cons_nomatch ds hd]
      exact ih hm

theorem length_applyUpdateOne (op : UpdateOneModel) (docs : List Company) :
    (applyUpdateOne op docs).1.length =
      docs.length + (if (applyUpdateOne op docs).2.2 then 1 else 0) := by
  induction docs with
  | nil => by_cases hu : op.upsert <;> simp [applyUpdateOne, hu]
  | cons d ds ih =>
    by_cases hd : d.name = op.filterName
    · simp [applyUpdateOne_cons_match ds hd]
    · rw [applyUpdateOne_cons_nomatch ds hd]
      simp only [List.length_cons, ih]
      omega

theorem bulkWriteUnordered_cons_rej {reject : UpdateOneModel → Bool}
    {op : UpdateOneModel} (h : reject op = true) (ops : List UpdateOneModel)
    (docs : List Company) :
    bulkWriteUnordered reject (op :: ops) docs =
      ⟨(bulkWriteUnordered reject ops docs).docs,
        (bulkWriteUnordered reject ops docs).modifiedCount,
        (bulkWriteUnordered reject ops docs).upsertedCount, true⟩ := by
  simp [bulkWriteUnordered, h]

theorem bulkWriteUnordered_cons_ok {reject : UpdateOneModel → Bool}
    {op : UpdateOneModel} (h : reject op = false) (ops : List UpdateOneModel)
    (docs : List Company) :
    bulkWriteUnordered reject (op :: ops) docs =
      ⟨(bulkWriteUnordered reject ops (applyUpdateOne op docs).1).docs,
        (if (applyUpdateOne op docs).2.1 then 1 else 0) +
          (bulkWriteUnordered reject ops (applyUpdateOne op docs).1).modifiedCount,
        (if (applyUpdateOne op docs).2.2 then 1 else 0) +
          (bulkWriteUnordered reject ops (applyUpdateOne op docs).1).upsertedCount,
        (bulkWriteUnordered reject ops (applyUpdateOne op docs).1).hadError⟩ := by
  simp [bulkWriteUnordered, h]

theorem docs_bulk_cons_ok {reject : UpdateOneModel → Bool} {op : UpdateOneModel}
    (h : reject op = false) (ops : List UpdateOneModel) (docs : List Company) :
    (bulkWriteUnordered reject (op :: ops) docs).docs =
      (bulkWriteUnordered reject ops (applyUpdateOne op docs).1).docs := by
  rw [bulkWriteUnordered_cons_ok h]

theorem namesNodup_applyUpdateOne {op : UpdateOneModel} (h : goodOp op)
    {docs : List Company} (hn : NamesNodup docs) :
    NamesNodup (applyUpdateOne op docs).1 := by
  unfold NamesNodup at *
  rw [docNames_applyUpdateOne h]
  by_cases hm : op.filterName ∈ docNames docs
  · rwa [if_pos hm]
  · rw [if_neg hm]
    simp [List.nodup_append, hn, hm]

theorem namesNodup_bulk {reject : UpdateOneModel → Bool}
    {ops : List UpdateOneModel} (hops : ∀ op ∈ ops, goodOp op)
    {docs : List Company} (hn : NamesNodup docs) :
    NamesNodup (bulkWriteUnordered reject ops docs).docs := by
  induction ops generalizing docs with
  | nil => exact hn
  | cons op ops ih =>
    have hops' : ∀ op' ∈ ops, goodOp op' := fun op' h' => hops op' (List.mem_cons_of_mem _ h')
    by_cases hr : reject op = true
    · rw [bulkWriteUnordered_cons_rej hr]
      exact ih hops' hn
    · rw [docs_bulk_cons_ok (Bool.not_eq_true _ ▸ hr) ]
      exact ih hops' (namesNodup_applyUpdateOne (hops op (List.mem_cons_self _ _)) hn)

theorem mem_docNames_applyUpdateOne {op : UpdateOneModel} (h : goodOp op)
    {docs : List Company} {s : String} (hs : s ∈ docNames docs) :
    s ∈ docNames (applyUpdateOne op docs).1 := by
  rw [docNames_applyUpdateOne h]
  by_cases hm : op.filterName ∈ docNames docs
  · rwa [if_pos hm]
  · rw [if_neg hm]
    exact List.mem_append_left _ hs

theorem filterName_mem_applyUpdateOne {op : UpdateOneModel} (h : goodOp op)
    (docs : List Company) :
    op.filterName ∈ docNames (applyUpdateOne op docs).1 := by
  rw [docNames_applyUpdateOne h]
  by_cases hm : op.filterName ∈ docNames docs
  · rwa [if_pos hm]
  · rw [if_neg hm]
    simp

theorem mem_docNames_bulk {reject : UpdateOneModel → Bool}
    {ops : List UpdateOneModel} (hops : ∀ op ∈ ops, goodOp op)
    {docs : List Company} {s : String} (hs : s ∈ docNames docs) :
    s ∈ docNames (bulkWriteUnordered reject ops docs).docs := by
  induction ops generalizing docs with
  | nil => exact hs
  | cons op ops ih =>
    have hops' : ∀ op' ∈ ops, goodOp op' := fun op' h' => hops op' (List.mem_cons_of_mem _ h')
    by_cases hr : reject op = true
    · rw [bulkWriteUnordered_cons_rej hr]
      exact ih hops' hs
    · rw [docs_bulk_cons_ok (Bool.not_eq_true _ ▸ hr)]
      exact ih hops' (mem_docNames_applyUpdateOne (hops op (List.mem_cons_self _ _)) hs)

theorem filterName_mem_bulk_noReject {ops : List UpdateOneModel}
    (hops : ∀ op ∈ ops, goodOp op) {op : UpdateOneModel} (hmem : op ∈ ops)
    (docs : List Company) :
    op.filterName ∈ docNames (bulkWriteUnordered noReject ops docs).docs := by
  induction ops generalizing docs with
  | nil => cases hmem
  | cons op' ops ih =>
    have hops' : ∀ o ∈ ops, goodOp o := fun o h' => hops o (List.mem_cons_of_mem _ h')
    rw [docs_bulk_cons_ok rfl]
    rcases List.mem_cons.mp hmem with rfl | hmem'
    · exact mem_docNames_bulk hops'
        (filterName_mem_applyUpdateOne (hops op (List.mem_cons_self _ _)) docs)
    · exact ih hops' hmem' _

theorem docNames_bulk_stable {ops : List UpdateOneModel}
    (hops : ∀ op ∈ ops, goodOp op) {docs : List Company}
    (hall : ∀ op ∈ ops, op.filterName ∈ docNames docs) :
    docNames (bulkWriteUnordered noReject ops docs).docs = docNames docs := by
  induction ops generalizing docs with
  | nil => rfl
  | cons op ops ih =>
    have hops' : ∀ o ∈ ops, goodOp o := fun o h' => hops o (List.mem_cons_of_mem _ h')
    rw [docs_bulk_cons_ok rfl]
    have h1 : docNames (applyUpdateOne op docs).1 = docNames docs := by
      rw [docNames_applyUpdateOne (hops op (List.mem_cons_self _ _)),
        if_pos (hall op (List.mem_cons_self _ _))]
    rw [ih hops' (fun o h' => h1 ▸ hall o (List.mem_cons_of_mem _ h')), h1]

theorem findName_bulk_of_lastUpd_none {ops : List UpdateOneModel}
    (hops : ∀ op ∈ ops, goodOp op) {n : String} (hl : lastUpd n ops = none)
    (docs : List Company) :
    findName n (bulkWriteUnordered noReject ops docs).docs = findName n docs := by
  induction ops generalizing docs with
  | nil => rfl
  | cons op ops ih =>
    have hops' : ∀ o ∈ ops, goodOp o := fun o h' => hops o (List.mem_cons_of_mem _ h')
    cases htl : lastUpd n ops with
    | some op' => simp [lastUpd, htl] at hl
    | none =>
      have hn : ¬op.filterName = n := by
        intro hfn
        simp [lastUpd, htl, hfn] at hl
      rw [docs_bulk_cons_ok rfl, ih hops' htl,
        findName_applyUpdateOne (hops op (List.mem_cons_self _ _)),
        if_neg (fun e => hn e.symm)]

theorem findName_bulk_of_lastUpd_some {ops : List UpdateOneModel}
    (hops : ∀ op ∈ ops, goodOp op) {n : String} {op₀ : UpdateOneModel}
    (hl : lastUpd n ops = some op₀) (docs : List Company) :
    findName n (bulkWriteUnordered noReject ops docs).docs = some (setDoc op₀) := by
  induction ops generalizing docs with
  | nil => simp [lastUpd] at hl
  | cons op ops ih =>
    have hops' : ∀ o ∈ ops, goodOp o := fun o h' => hops o (List.mem_cons_of_mem _ h')
    rw [docs_bulk_cons_ok rfl]
    cases htl : lastUpd n ops with
    | some op' =>
      have he : op' = op₀ := by simp [lastUpd, htl] at hl; exact hl
      subst he
      exact ih hops' htl _
    | none =>
      have hfn : op.filterName = n ∧ op = op₀ := by
        by_cases hc : op.filterName = n
        · refine ⟨hc, ?_⟩
          simp [lastUpd, htl, hc] at hl
          exact hl
        · simp [lastUpd, htl, hc] at hl
      rw [findName_bulk_of_lastUpd_none hops' htl,
        findName_applyUpdateOne (hops op (List.mem_cons_self _ _)),
        if_pos hfn.1.symm, hfn.2]

theorem upsertedCount_zero {ops : List UpdateOneModel}
    (hops : ∀ op ∈ ops, goodOp op) {docs : List Company}
    (hall : ∀ op ∈ ops, op.filterName ∈ docNames docs) :
    (bulkWriteUnordered noReject ops docs).upsertedCount = 0 := by
  induction ops generalizing docs with
  | nil => rfl
  | cons op ops ih =>
    have hops' : ∀ o ∈ ops, goodOp o := fun o h' => hops o (List.mem_cons_of_mem _ h')
    have h1 : docNames (applyUpdateOne op docs).1 = docNames docs := by
      rw [docNames_applyUpdateOne (hops op (List.mem_cons_self _ _)),
        if_pos (hall op (List.mem_cons_self _ _))]
    rw [bulkWriteUnordered_cons_ok rfl]
    show (if (applyUpdateOne op docs).2.2 then 1 else 0) + _ = 0
    rw [upserted_false_of_mem (hall op (List.mem_cons_self _ _)),
      ih hops' (fun o h' => h1 ▸ hall o (List.mem_cons_of_mem _ h'))]
    simp

theorem findName_eq_none {n : String} {l : List Company}
    (h : n ∉ docNames l) : findName n l = none := by
  rw [findName, List.find?_eq_none]
  intro c hc
  simp only [decide_eq_true_eq]
  intro e
  exact h (e ▸ List.mem_map_of_mem Company.name hc)

theorem eq_of_names_eq_of_findName_eq :
    ∀ {l1 l2 : List Company}, docNames l1 = docNames l2 → NamesNodup l1 →
      (∀ n, findName n l1 = findName n l2) → l1 = l2
  | [], l2, hn, _, _ => by
    cases l2 with
    | nil => rfl
    | cons e l2' => simp [docNames] at hn
  | d :: l1', l2, hn, hnd, hf => by
    cases l2 with
    | nil => simp [docNames] at hn
    | cons e l2' =>
      rw [docNames_cons, docNames_cons] at hn
      have hname : d.name = e.name := (List.cons.injEq _ _ _ _ ▸ hn).1
      have htail : docNames l1' = docNames l2' := (List.cons.injEq _ _ _ _ ▸ hn).2
      have hde : d = e := by
        have h1 : findName d.name (d :: l1') = some d := by
          rw [findName, List.find?_cons_of_pos _ (by simp)]
        have h2 : findName d.name (e :: l2') = some e := by
          rw [findName, List.find?_cons_of_pos _ (by simp [hname])]
        have := hf d.name
        rw [h1, h2] at this
        exact Option.some.injEq _ _ ▸ this
      subst hde
      have hnotmem : d.name ∉ docNames l1' := by
        rw [NamesNodup, docNames_cons, List.nodup_cons] at hnd
        exact hnd.1
      have hrec : l1' = l2' := by
        apply eq_of_names_eq_of_findName_eq htail
        · rw [NamesNodup, docNames_cons, List.nodup_cons] at hnd
          exact hnd.2
        · intro n
          by_cases hn' : n = d.name
          · subst hn'
            rw [findName_eq_none hnotmem, findName_eq_none (htail ▸ hnotmem)]
          · have := hf n
            rw [findName, List.find?_cons_of_neg _ (by simp [hn']; exact fun e => hn' e.symm),
              findName, List.find?_cons_of_neg _ (by simp [hn']; exact fun e => hn' e.symm)] at this
            exact this
      rw [hrec]

theorem hadError_noReject (ops : List UpdateOneModel) (docs : List Company) :
    (bulkWriteUnordered noReject ops docs).hadError = false := by
  induction ops generalizing docs with
  | nil => rfl
  | cons op ops ih =>
    rw [bulkWriteUnordered_cons_ok rfl]
    exact ih _

theorem hadError_of_mem_reject {reject : UpdateOneModel → Bool}
    {ops : List UpdateOneModel} {op : UpdateOneModel} (hmem : op ∈ ops)
    (hr : reject op = true) (docs : List Company) :
    (bulkWriteUnordered reject ops docs).hadError = true := by
  induction ops generalizing docs with
  | nil => cases hmem
  | cons op' ops ih =>
    by_cases hr' : reject op' = true
    · rw [bulkWriteUnordered_cons_rej hr']
    · rcases List.mem_cons.mp hmem with rfl | hmem'
      · exact absurd hr hr'
      · rw [bulkWriteUnordered_cons_ok (Bool.not_eq_true _ ▸ hr')]
        exact ih hmem' _

theorem docs_bulk_filter (reject : UpdateOneModel → Bool)
    (ops : List UpdateOneModel) (docs : List Company) :
    (bulkWriteUnordered reject ops docs).docs =
      (bulkWriteUnordered noReject (ops.filter fun op => !reject op) docs).docs := by
  induction ops generalizing docs with
  | nil => rfl
  | cons op ops ih =>
    by_cases hr : reject op = true
    · rw [bulkWriteUnordered_cons_rej hr, List.filter_cons_of_neg (by simp [hr])]
      exact ih docs
    · have hr' : reject op = false := Bool.not_eq_true _ ▸ hr
      rw [docs_bulk_cons_ok hr', List.filter_cons_of_pos (by simp [hr']),
        docs_bulk_cons_ok rfl]
      exact ih _

theorem length_bulk (reject : UpdateOneModel → Bool)
    (ops : List UpdateOneModel) (docs : List Company) :
    (bulkWriteUnordered reject ops docs).docs.length =
      docs.length + (bulkWriteUnordered reject ops docs).upsertedCount := by
  induction ops generalizing docs with
  | nil => rfl
  | cons op ops ih =>
    by_cases hr : reject op = true
    · rw [bulkWriteUnordered_cons_rej hr]
      exact ih docs
    · rw [bulkWriteUnordered_cons_ok (Bool.not_eq_true _ ▸ hr)]
      show (bulkWriteUnordered reject ops (applyUpdateOne op docs).1).docs.length =
        docs.length + ((if (applyUpdateOne op docs).2.2 then 1 else 0) +
          (bulkWriteUnordered reject ops (applyUpdateOne op docs).1).upsertedCount)
      rw [ih, length_applyUpdateOne]
      omega

theorem bulk_idempotent {ops : List UpdateOneModel}
    (hops : ∀ op ∈ ops, goodOp op) {docs : List Company} (hn : NamesNodup docs) :
    (bulkWriteUnordered noReject ops
      (bulkWriteUnordered noReject ops docs).docs).docs =
      (bulkWriteUnordered noReject ops docs).docs := by
  have hn1 : NamesNodup (bulkWriteUnordered noReject ops docs).docs :=
    namesNodup_bulk hops hn
  have hall : ∀ op ∈ ops,
      op.filterName ∈ docNames (bulkWriteUnordered noReject ops docs).docs :=
    fun op h => filterName_mem_bulk_noReject hops h docs
  apply eq_of_names_eq_of_findName_eq
  · exact docNames_bulk_stable hops hall
  · exact namesNodup_bulk hops hn1
  · intro n
    cases hl : lastUpd n ops with
    | some op =>
      rw [findName_bulk_of_lastUpd_some hops hl,
        findName_bulk_of_lastUpd_some hops hl]
    | none =>
      rw [findName_bulk_of_lastUpd_none hops hl]

theorem ProcessBatch_state {reject : UpdateOneModel → Bool} {st : StoreState}
    {companies : List Company} (h : companies ≠ []) :
    (ProcessBatch reject st companies).state =
      ⟨(bulkWriteUnordered reject (buildOperations companies) st.docs).docs,
        st.bulkCalls + 1⟩ := by
  simp only [ProcessBatch]
  rw [if_neg (by simp [h])]
  split <;> rfl

theorem ProcessBatch_success {reject : UpdateOneModel → Bool} {st : StoreState}
    {companies : List Company} (h : companies ≠ [])
    (he : (bulkWriteUnordered reject (buildOperations companies) st.docs).hadError
      = false) :
    ProcessBatch reject st companies =
      ⟨(bulkWriteUnordered reject (buildOperations companies) st.docs).modifiedCount +
        (bulkWriteUnordered reject (buildOperations companies) st.docs).upsertedCount,
        none,
        ⟨(bulkWriteUnordered reject (buildOperations companies) st.docs).docs,
          st.bulkCalls + 1⟩⟩ := by
  simp only [ProcessBatch]
  rw [if_neg (by simp [h]), if_neg (by simp [he])]

theorem ProcessBatch_bulkError {reject : UpdateOneModel → Bool} {st : StoreState}
    {companies : List Company} (h : companies ≠ [])
    (he : (bulkWriteUnordered reject (buildOperations companies) st.docs).hadError
      = true) :
    ProcessBatch reject st companies =
      ⟨0, some "failed to process batch: bulk write exception",
        ⟨(bulkWriteUnordered reject (buildOperations companies) st.docs).docs,
          st.bulkCalls + 1⟩⟩ := by
  simp only [ProcessBatch]
  rw [if_neg (by simp [h]), if_pos he]

theorem namesNodup_ProcessBatch {reject : UpdateOneModel → Bool} {st : StoreState}
    {companies : List Company} (h : NamesNodup st.docs) :
    NamesNodup (ProcessBatch reject st companies).state.docs := by
  by_cases hc : companies = []
  · subst hc; exact h
  · rw [ProcessBatch_state hc]
    exact namesNodup_bulk (fun op hop => goodOp_buildOperations hop) h

theorem updateOneTreated_cons_nomatch {n : String} {d : Company}
    (ds : List Company) (hd : ¬d.name = n) :
    updateOneTreated n (d :: ds) =
      (d :: (updateOneTreated n ds).1, (updateOneTreated n ds).2) := by
  simp [updateOneTreated, hd]

theorem updateOneTreated_of_findName_none {n : String} {docs : List Company}
    (h : findName n docs = none) : updateOneTreated n docs = (docs, 0, 0) := by
  induction docs with
  | nil => rfl
  | cons d ds ih =>
    simp only [findName] at h ih
    by_cases hd : d.name = n
    · rw [List.find?_cons_of_pos _ (by simp [hd])] at h
      cases h
    · rw [List.find?_cons_of_neg _ (by simp [hd])] at h
      simp [updateOneTreated, hd, ih h]

theorem updateOneTreated_of_findName_treated {n : String} {docs : List Company}
    {c : Company} (h : findName n docs = some c) (ht : c.treated = true) :
    updateOneTreated n docs = (docs, 1, 0) := by
  induction docs with
  | nil => cases h
  | cons d ds ih =>
    simp only [findName] at h ih
    by_cases hd : d.name = n
    · rw [List.find?_cons_of_pos _ (by simp [hd])] at h
      have hdc : d = c := Option.some.inj h
      subst hdc
      simp [updateOneTreated, hd, ht]
    · rw [List.find?_cons_of_neg _ (by simp [hd])] at h
      simp [updateOneTreated, hd, ih h]

theorem updateOneTreated_of_findName_untreated {n : String} {docs : List Company}
    {c : Company} (h : findName n docs = some c) (ht : c.treated = false) :
    (updateOneTreated n docs).2.1 = 1 ∧ (updateOneTreated n docs).2.2 = 1 ∧
    findName n (updateOneTreated n docs).1 = some ⟨c.name, c.address, true⟩ ∧
    ∃ i : Nat, docs[i]? = some c ∧
      (updateOneTreated n docs).1[i]? = some ⟨c.name, c.address, true⟩ ∧
      ∀ j : Nat, j ≠ i → (updateOneTreated n docs).1[j]? = docs[j]? := by
  induction docs with
  | nil => cases h
  | cons d ds ih =>
    simp only [findName] at h ih ⊢
    by_cases hd : d.name = n
    · rw [List.find?_cons_of_pos _ (by simp [hd])] at h
      have hdc : d = c := Option.some.inj h
      subst hdc
      have hu : updateOneTreated n (d :: ds) =
          ({ d with treated := true } :: ds, 1, 1) := by
        simp [updateOneTreated, hd, ht]
      rw [hu]
      refine ⟨rfl, rfl, ?_, 0, ?_, ?_, ?_⟩
      · rw [List.find?_cons_of_pos _ (by simp [hd])]
      · simp
      · simp
      · intro j hj
        cases j with
        | zero => exact absurd rfl hj
        | succ j => simp
    · rw [List.find?_cons_of_neg _ (by simp [hd])] at h
      obtain ⟨h1, h2, h3, i, hi1, hi2, hi3⟩ := ih h
      rw [updateOneTreated_cons_nomatch ds hd]
      refine ⟨h1, h2, ?_, i + 1, ?_, ?_, ?_⟩
      · rw [List.find?_cons_of_neg _ (by simp [hd])]
        exact h3
      · simpa using hi1
      · simpa using hi2
      · intro j hj
        cases j with
        | zero => simp
        | succ j => simpa using hi3 j (fun e => hj (by rw [e]))

theorem findName_some_name {n : String} {docs : List Company} {c : Company}
    (h : findName n docs = some c) : c.name = n := by
  simp only [findName] at h
  have h2 := List.find?_some h
  simpa using h2

theorem docNames_updateOneTreated (n : String) (docs : List Company) :
    docNames (updateOneTreated n docs).1 = docNames docs := by
  induction docs with
  | nil => rfl
  | cons d ds ih =>
    by_cases hd : d.name = n
    · by_cases ht : d.treated <;> simp [updateOneTreated, hd, ht, docNames]
    · rw [updateOneTreated_cons_nomatch ds hd, docNames_cons, docNames_cons, ih]

theorem sorted_perm_unique :
    ∀ {l1 l2 : List Company}, l1.Perm l2 → List.Sorted nameLE l1 →
      List.Sorted nameLE l2 → NamesNodup l1 → l1 = l2
  | [], l2, hp, _, _, _ => (hp.symm.eq_nil).symm
  | a :: l1', l2, hp, hs1, hs2, hnd => by
    cases l2 with
    | nil => simp at hp
    | cons b l2' =>
      rw [List.sorted_cons] at hs1 hs2
      have hb : b ∈ a :: l1' := hp.mem_iff.mpr (List.mem_cons_self _ _)
      have ha : a ∈ b :: l2' := hp.mem_iff.mp (List.mem_cons_self _ _)
      have hab : a = b := by
        rcases List.mem_cons.mp hb with rfl | hb'
        · rfl
        · rcases List.mem_cons.mp ha with e | ha'
          · exact e
          · have h1 : nameLE a b := hs1.1 b hb'
            have h2 : nameLE b a := hs2.1 a ha'
            have hname : a.name = b.name := le_antisymm h1 h2
            rw [NamesNodup, docNames_cons, List.nodup_cons] at hnd
            exact absurd (by rw [hname]; exact List.mem_map_of_mem Company.name hb')
              hnd.1
      subst hab
      have hrec : l1' = l2' := by
        apply sorted_perm_unique hp.cons_inv hs1.2 hs2.2
        rw [NamesNodup, docNames_cons, List.nodup_cons] at hnd
        exact hnd.2
      rw [hrec]

/-- C1: for every record in the input sequence, `ProcessBatch` builds exactly
one upsert instruction keyed by the record's name — filter
`{name == record.name}`, update = full-document replace of
`{name, address, treated}`, `upsert = true` — and submits the full set of
instructions as a single bulk write. -/
theorem C1_one_upsert_per_record (reject : UpdateOneModel → Bool)
    (st : StoreState) (companies : List Company) (h : companies ≠ []) :
    (buildOperations companies).length = companies.length ∧
    (∀ i : Nat, ∀ c : Company, companies[i]? = some c →
      (buildOperations companies)[i]? =
        some ⟨c.name, c.name, c.address, c.treated, true⟩) ∧
    (ProcessBatch reject st companies).state.docs =
      (bulkWriteUnordered reject (buildOperations companies) st.docs).docs ∧
    (ProcessBatch reject st companies).state.bulkCalls = st.bulkCalls + 1 := by
  refine ⟨by simp [buildOperations], ?_, ?_, ?_⟩
  · intro i c hc
    simp [buildOperations, hc]
  · rw [ProcessBatch_state h]
  · rw [ProcessBatch_state h]

theorem C1_witness :
    (buildOperations [⟨"a", "x", false⟩]).length =
      ([(⟨"a", "x", false⟩ : Company)]).length ∧
    (∀ i : Nat, ∀ c : Company, ([(⟨"a", "x", false⟩ : Company)])[i]? = some c →
      (buildOperations [⟨"a", "x", false⟩])[i]? =
        some ⟨c.name, c.name, c.address, c.treated, true⟩) ∧
    (ProcessBatch noReject ⟨[], 0⟩ [⟨"a", "x", false⟩]).state.docs =
      (bulkWriteUnordered noReject (buildOperations [⟨"a", "x", false⟩])
        ([] : List Company)).docs ∧
    (ProcessBatch noReject ⟨[], 0⟩ [⟨"a", "x", false⟩]).state.bulkCalls = 0 + 1 :=
  C1_one_upsert_per_record noReject ⟨[], 0⟩ [⟨"a", "x", false⟩] (by decide)

/-- C2: for every input and after any sequence of `ProcessBatch` calls, the
store contains at most one record per `name` — the natural-key uniqueness
invariant is preserved by every batch. -/
theorem C2_uniqueness_invariant (reject : UpdateOneModel → Bool)
    (st : StoreState) (batches : List (List Company)) (h : NamesNodup st.docs) :
    ∀ n : String, (docNames (runBatches reject st batches).docs).count n ≤ 1 := by
  have hnd : NamesNodup (runBatches reject st batches).docs := by
    induction batches generalizing st with
    | nil => exact h
    | cons b bs ih => exact ih _ (namesNodup_ProcessBatch h)
  exact fun n => List.nodup_iff_count_le_one.mp hnd n

theorem C2_witness :
    (docNames (runBatches noReject ⟨[], 0⟩
      [[⟨"a", "x", false⟩], [⟨"a", "y", true⟩, ⟨"b", "z", false⟩]]).docs).count "a"
      ≤ 1 :=
  C2_uniqueness_invariant noReject ⟨[], 0⟩
    [[⟨"a", "x", false⟩], [⟨"a", "y", true⟩, ⟨"b", "z", false⟩]] (by decide) "a"

/-- C3: `ProcessBatch` is idempotent on stored state — submitting the same
batch twice yields a stored document set identical to submitting it once,
and the second call's bulk write upserts zero net new documents. -/
theorem C3_idempotent (st : StoreState) (companies : List Company)
    (h : NamesNodup st.docs) :
    (ProcessBatch noReject (ProcessBatch noReject st companies).state
        companies).state.docs =
      (ProcessBatch noReject st companies).state.docs ∧
    (bulkWriteUnordered noReject (buildOperations companies)
      (ProcessBatch noReject st companies).state.docs).upsertedCount = 0 := by
  by_cases hc : companies = []
  · subst hc
    exact ⟨rfl, rfl⟩
  · have hops : ∀ op ∈ buildOperations companies, goodOp op :=
      fun op hop => goodOp_buildOperations hop
    have hstate : (ProcessBatch noReject st companies).state.docs =
        (bulkWriteUnordered noReject (buildOperations companies) st.docs).docs := by
      rw [ProcessBatch_state hc]
    have houter := @ProcessBatch_state noReject
      (ProcessBatch noReject st companies).state companies hc
    constructor
    · rw [houter]
      show (bulkWriteUnordered noReject (buildOperations companies)
          (ProcessBatch noReject st companies).state.docs).docs = _
      rw [hstate]
      exact bulk_idempotent hops h
    · rw [hstate]
      exact upsertedCount_zero hops
        (fun op hop => filterName_mem_bulk_noReject hops hop st.docs)

theorem C3_witness :
    (ProcessBatch noReject
        (ProcessBatch noReject ⟨[], 0⟩ [⟨"a", "x", false⟩]).state
        [⟨"a", "x", false⟩]).state.docs =
      (ProcessBatch noReject ⟨[], 0⟩ [⟨"a", "x", false⟩]).state.docs ∧
    (bulkWriteUnordered noReject (buildOperations [⟨"a", "x", false⟩])
      (ProcessBatch noReject ⟨[], 0⟩ [⟨"a", "x", false⟩]).state.docs).upsertedCount
      = 0 :=
  C3_idempotent ⟨[], 0⟩ [⟨"a", "x", false⟩] (by decide)

/-- C4: `ProcessBatch` submits the batch as an unordered bulk write: when the
store rejects individual operations, all remaining well-formed operations of
the same batch are still executed and applied — the stored documents after the
call are exactly those produced by executing the non-rejected operations. -/
theorem C4_unordered_partial_tolerance (reject : UpdateOneModel → Bool)
    (st : StoreState) (companies : List Company) (h : companies ≠ []) :
    (ProcessBatch reject st companies).state.docs =
      (bulkWriteUnordered noReject
        ((buildOperations companies).filter fun op => !reject op) st.docs).docs := by
  rw [ProcessBatch_state h]
  exact docs_bulk_filter reject _ st.docs

theorem C4_witness :
    (ProcessBatch (fun op => decide (op.filterName = "a")) ⟨[], 0⟩
        [⟨"a", "x", false⟩, ⟨"b", "y", false⟩]).state.docs =
      (bulkWriteUnordered noReject
        ((buildOperations [⟨"a", "x", false⟩, ⟨"b", "y", false⟩]).filter
          fun op => !decide (op.filterName = "a")) ([] : List Company)).docs :=
  C4_unordered_partial_tolerance (fun op => decide (op.filterName = "a")) ⟨[], 0⟩
    [⟨"a", "x", false⟩, ⟨"b", "y", false⟩] (by decide)

/-- C5: on success, the count returned by `ProcessBatch` equals the number of
documents updated in place (`ModifiedCount`) plus the number of documents
newly inserted via upsert (`UpsertedCount`); the upserted count is exactly the
net growth of the stored collection. -/
theorem C5_count_is_modified_plus_upserted (st : StoreState)
    (companies : List Company) (h : companies ≠ []) :
    (ProcessBatch noReject st companies).count =
      (bulkWriteUnordered noReject (buildOperations companies)
          st.docs).modifiedCount +
        (bulkWriteUnordered noReject (buildOperations companies)
          st.docs).upsertedCount ∧
    (ProcessBatch noReject st companies).error = none ∧
    (ProcessBatch noReject st companies).state.docs.length =
      st.docs.length +
        (bulkWriteUnordered noReject (buildOperations companies)
          st.docs).upsertedCount := by
  rw [ProcessBatch_success h (hadError_noReject _ _)]
  exact ⟨rfl, rfl, length_bulk _ _ _⟩

theorem C5_witness :
    (ProcessBatch noReject ⟨[⟨"a", "old", true⟩], 0⟩
        [⟨"a", "x", false⟩, ⟨"c", "z", false⟩]).count =
      (bulkWriteUnordered noReject
          (buildOperations [⟨"a", "x", false⟩, ⟨"c", "z", false⟩])
          [⟨"a", "old", true⟩]).modifiedCount +
        (bulkWriteUnordered noReject
          (buildOperations [⟨"a", "x", false⟩, ⟨"c", "z", false⟩])
          [⟨"a", "old", true⟩]).upsertedCount ∧
    (ProcessBatch noReject ⟨[⟨"a", "old", true⟩], 0⟩
        [⟨"a", "x", false⟩, ⟨"c", "z", false⟩]).error = none ∧
    (ProcessBatch noReject ⟨[⟨"a", "old", true⟩], 0⟩
        [⟨"a", "x", false⟩, ⟨"c", "z", false⟩]).state.docs.length =
      ([(⟨"a", "old", true⟩ : Company)]).length +
        (bulkWriteUnordered noReject
          (buildOperations [⟨"a", "x", false⟩, ⟨"c", "z", false⟩])
          [⟨"a", "old", true⟩]).upsertedCount :=
  C5_count_is_modified_plus_upserted ⟨[⟨"a", "old", true⟩], 0⟩
    [⟨"a", "x", false⟩, ⟨"c", "z", false⟩] (by decide)

/-- C6: `ProcessBatch` on an empty record sequence returns `(0, nil)` — a
no-op, not an error — performing no store call and leaving the store state
(including the bulk-call counter) untouched. -/
theorem C6_empty_batch_noop (reject : UpdateOneModel → Bool) (st : StoreState) :
    ProcessBatch reject st [] = ⟨0, none, st⟩ := rfl

/-- C7: `UpdateTreatedField` (MarkTreated) is a trichotomy on every name: no
matching document yields `notFound`; a matching document with `treated`
already true yields `noOp`; a matching document with `treated` false is set to
true and yields `success`. -/
theorem C7_markTreated_trichotomy (docs : List Company) (n : String) :
    (findName n docs = none → UpdateTreatedField n docs = (.notFound, docs)) ∧
    (∀ c : Company, findName n docs = some c → c.treated = true →
      UpdateTreatedField n docs = (.noOp, docs)) ∧
    (∀ c : Company, findName n docs = some c → c.treated = false →
      (UpdateTreatedField n docs).1 = .success ∧
      findName n (UpdateTreatedField n docs).2 =
        some ⟨c.name, c.address, true⟩) := by
  refine ⟨?_, ?_, ?_⟩
  · intro hf
    simp [UpdateTreatedField, updateOneTreated_of_findName_none hf]
  · intro c hf ht
    simp [UpdateTreatedField, updateOneTreated_of_findName_treated hf ht]
  · intro c hf ht
    obtain ⟨h1, h2, h3, -⟩ := updateOneTreated_of_findName_untreated hf ht
    have hres : UpdateTreatedField n docs = (.success, (updateOneTreated n docs).1) := by
      simp [UpdateTreatedField, h1, h2]
    rw [hres]
    exact ⟨rfl, h3⟩

theorem C7_witness :
    UpdateTreatedField "z" [⟨"a", "x", false⟩, ⟨"b", "y", true⟩] =
      (.notFound, [⟨"a", "x", false⟩, ⟨"b", "y", true⟩]) ∧
    UpdateTreatedField "b" [⟨"a", "x", false⟩, ⟨"b", "y", true⟩] =
      (.noOp, [⟨"a", "x", false⟩, ⟨"b", "y", true⟩]) ∧
    ((UpdateTreatedField "a" [⟨"a", "x", false⟩, ⟨"b", "y", true⟩]).1 = .success ∧
      findName "a" (UpdateTreatedField "a" [⟨"a", "x", false⟩, ⟨"b", "y", true⟩]).2 =
        some ⟨"a", "x", true⟩) :=
  ⟨(C7_markTreated_trichotomy [⟨"a", "x", false⟩, ⟨"b", "y", true⟩] "z").1
      (by decide),
    (C7_markTreated_trichotomy [⟨"a", "x", false⟩, ⟨"b", "y", true⟩] "b").2.1
      ⟨"b", "y", true⟩ (by decide) rfl,
    (C7_markTreated_trichotomy [⟨"a", "x", false⟩, ⟨"b", "y", true⟩] "a").2.2
      ⟨"a", "x", false⟩ (by decide) rfl⟩

/-- C8: a successful `UpdateTreatedField` mutates only the `treated` field of
the matched document — its `name` and `address`, and every other stored
document, are unchanged. -/
theorem C8_markTreated_frame (docs : List Company) (n : String)
    (h : (UpdateTreatedField n docs).1 = .success) :
    ∃ i : Nat, ∃ c : Company, docs[i]? = some c ∧ c.name = n ∧
      c.treated = false ∧
      (UpdateTreatedField n docs).2[i]? = some ⟨c.name, c.address, true⟩ ∧
      ∀ j : Nat, j ≠ i → (UpdateTreatedField n docs).2[j]? = docs[j]? := by
  cases hf : findName n docs with
  | none =>
    simp [UpdateTreatedField, updateOneTreated_of_findName_none hf] at h
  | some c =>
    cases ht : c.treated with
    | true =>
      simp [UpdateTreatedField, updateOneTreated_of_findName_treated hf ht] at h
    | false =>
      obtain ⟨h1, h2, -, i, hi1, hi2, hi3⟩ :=
        updateOneTreated_of_findName_untreated hf ht
      have h2eq : (UpdateTreatedField n docs).2 = (updateOneTreated n docs).1 := by
        simp [UpdateTreatedField, h1, h2]
      exact ⟨i, c, hi1, findName_some_name hf, ht, by rw [h2eq]; exact hi2,
        fun j hj => by rw [h2eq]; exact hi3 j hj⟩

theorem C8_witness :
    ∃ i : Nat, ∃ c : Company,
      ([⟨"a", "x", false⟩, ⟨"b", "y", true⟩] : List Company)[i]? = some c ∧
      c.name = "a" ∧ c.treated = false ∧
      (UpdateTreatedField "a" [⟨"a", "x", false⟩, ⟨"b", "y", true⟩]).2[i]? =
        some ⟨c.name, c.address, true⟩ ∧
      ∀ j : Nat, j ≠ i →
        (UpdateTreatedField "a" [⟨"a", "x", false⟩, ⟨"b", "y", true⟩]).2[j]? =
          ([⟨"a", "x", false⟩, ⟨"b", "y", true⟩] : List Company)[j]? :=
  C8_markTreated_frame [⟨"a", "x", false⟩, ⟨"b", "y", true⟩] "a" (by decide)

/-- C9: `FetchAllCompanies` returns every stored record ordered ascending by
`name`, for any stored set; given the uniqueness invariant the order is
deterministic — it is the unique name-sorted permutation of the store. -/
theorem C9_fetchAll_sorted (docs : List Company) :
    List.Sorted nameLE (FetchAllCompanies docs) ∧
    (FetchAllCompanies docs).Perm docs ∧
    (NamesNodup docs → ∀ l : List Company, l.Perm docs →
      List.Sorted nameLE l → l = FetchAllCompanies docs) := by
  refine ⟨List.sorted_insertionSort nameLE docs,
    List.perm_insertionSort nameLE docs, ?_⟩
  intro hnd l hp hs
  exact sorted_perm_unique (hp.trans (List.perm_insertionSort nameLE docs).symm)
    hs (List.sorted_insertionSort nameLE docs)
    ((hp.map Company.name).nodup_iff.mpr hnd)

theorem C9_witness :
    List.Sorted nameLE (FetchAllCompanies [⟨"b", "y", true⟩, ⟨"a", "x", false⟩]) ∧
    (FetchAllCompanies [⟨"b", "y", true⟩, ⟨"a", "x", false⟩]).Perm
      [⟨"b", "y", true⟩, ⟨"a", "x", false⟩] ∧
    ([⟨"a", "x", false⟩, ⟨"b", "y", true⟩] : List Company) =
      FetchAllCompanies [⟨"b", "y", true⟩, ⟨"a", "x", false⟩] :=
  ⟨(C9_fetchAll_sorted [⟨"b", "y", true⟩, ⟨"a", "x", false⟩]).1,
    (C9_fetchAll_sorted [⟨"b", "y", true⟩, ⟨"a", "x", false⟩]).2.1,
    (C9_fetchAll_sorted [⟨"b", "y", true⟩, ⟨"a", "x", false⟩]).2.2 (by decide)
      [⟨"a", "x", false⟩, ⟨"b", "y", true⟩] (by decide)
      (by
        rw [List.sorted_cons]
        refine ⟨?_, List.sorted_singleton _⟩
        intro b hb
        rw [List.mem_singleton] at hb
        subst hb
        exact String.le_iff_toList_le.mpr (by decide))⟩

/-- C10: whenever the bulk write returns an error, `ProcessBatch` returns a
count of exactly 0 together with the wrapped batch error, even though under
unordered semantics the non-rejected operations of the batch have been
applied to the store. -/
theorem C10_error_returns_zero (reject : UpdateOneModel → Bool)
    (st : StoreState) (companies : List Company) (op : UpdateOneModel)
    (hmem : op ∈ buildOperations companies) (hr : reject op = true) :
    (ProcessBatch reject st companies).count = 0 ∧
    (ProcessBatch reject st companies).error =
      some "failed to process batch: bulk write exception" ∧
    (ProcessBatch reject st companies).state.docs =
      (bulkWriteUnordered noReject
        ((buildOperations companies).filter fun o => !reject o) st.docs).docs := by
  have hne : companies ≠ [] := by
    intro e
    subst e
    simp [buildOperations] at hmem
  rw [ProcessBatch_bulkError hne (hadError_of_mem_reject hmem hr st.docs)]
  exact ⟨rfl, rfl, docs_bulk_filter reject _ st.docs⟩

theorem C10_witness :
    (ProcessBatch (fun o => decide (o.filterName = "a")) ⟨[], 0⟩
        [⟨"a", "x", false⟩, ⟨"b", "y", false⟩]).count = 0 ∧
    (ProcessBatch (fun o => decide (o.filterName = "a")) ⟨[], 0⟩
        [⟨"a", "x", false⟩, ⟨"b", "y", false⟩]).error =
      some "failed to process batch: bulk write exception" ∧
    (ProcessBatch (fun o => decide (o.filterName = "a")) ⟨[], 0⟩
        [⟨"a", "x", false⟩, ⟨"b", "y", false⟩]).state.docs =
      (bulkWriteUnordered noReject
        ((buildOperations [⟨"a", "x", false⟩, ⟨"b", "y", false⟩]).filter
          fun o => !decide (o.filterName = "a")) ([] : List Company)).docs :=
  C10_error_returns_zero (fun o => decide (o.filterName = "a")) ⟨[], 0⟩
    [⟨"a", "x", false⟩, ⟨"b", "y", false⟩] ⟨"a", "a", "x", false, true⟩
    (by decide) (by decide)

end Middleware
